import Mathlib

/-!
Verification of the LRC lyric codec and merger in `src/Lyrics.py`.

The Python code is shallowly embedded: strings are lists of characters,
Python `int(str)` is `pyInt`, exceptions are `Except`/`Option`, and the
regular expression `\[(\d+:\d+\.\d+)\]` is realised as the deterministic
scanner `scanTags` (each `\d+` is followed by a non-digit literal, so the
greedy match never backtracks and a maximal-munch scan is equivalent).
`\d` is modelled as the ASCII digits. Diagnostics printed by the parser
are collected as a list of the offending tag texts.
-/

/-- Characters Python `str.strip()` and `int()` treat as whitespace
(ASCII fragment). -/
def isPySpace (c : Char) : Bool :=
  c = ' ' || c = '\t' || c = '\n' || c = '\r' || c = '\x0b' || c = '\x0c'

/-- ASCII decimal digit. -/
def isDigit (c : Char) : Bool := 48 ≤ c.toNat && c.toNat ≤ 57

/-- Numeric value of an ASCII digit. -/
def digitVal (c : Char) : Nat := c.toNat - 48

/-- Python `str.strip(chars)`: remove matching characters from both ends. -/
def stripBoth (p : Char → Bool) (cs : List Char) : List Char :=
  ((cs.dropWhile p).reverse.dropWhile p).reverse

/-- Python `str.strip()` with no argument. -/
def pyStrip (cs : List Char) : List Char := stripBoth isPySpace cs

/-- The characters stripped by `time_str.strip('[]')`. -/
def isBracket (c : Char) : Bool := c = '[' || c = ']'

/-- Python `str.split(sep)` for a one-character separator:
`"" ↦ [""]`, empty pieces kept. -/
def pySplit (sep : Char) : List Char → List (List Char)
  | [] => [[]]
  | c :: cs =>
    if c = sep then [] :: pySplit sep cs
    else
      match pySplit sep cs with
      | [] => [[c]]
      | l :: ls => (c :: l) :: ls

/-- Python `str.split(sep, 1)`: split at the first occurrence of `sep`;
`none` when `sep` does not occur (where Python tuple unpacking of the
one-element list raises `ValueError`). -/
def splitOnce (sep : Char) : List Char → Option (List Char × List Char)
  | [] => none
  | c :: cs =>
    if c = sep then some ([], cs)
    else (splitOnce sep cs).map (fun p => (c :: p.1, p.2))

/-- Digits of a Python decimal literal after the first digit: a single
underscore may separate digit groups. `acc` is the value read so far. -/
def digitsURest (acc : Nat) : List Char → Option Nat
  | [] => some acc
  | c :: cs =>
    if c = '_' then
      match cs with
      | [] => none
      | d :: cs2 => if isDigit d then digitsURest (acc * 10 + digitVal d) cs2 else none
    else if isDigit c then digitsURest (acc * 10 + digitVal c) cs else none

/-- An unsigned Python decimal literal: a digit, then digit groups. -/
def parseDigitsU : List Char → Option Nat
  | [] => none
  | c :: cs => if isDigit c then digitsURest (digitVal c) cs else none

/-- Model of Python `int(str)`: optional surrounding whitespace, an
optional sign, then underscore-grouped decimal digits. -/
def pyInt (cs : List Char) : Option Int :=
  match stripBoth isPySpace cs with
  | [] => none
  | c :: rest =>
    if c = '+' then (parseDigitsU rest).map (fun n => (n : Int))
    else if c = '-' then (parseDigitsU rest).map (fun n => -(n : Int))
    else (parseDigitsU (c :: rest)).map (fun n => (n : Int))

/-- The value of a pure digit string read left to right. -/
def decodeDigits (cs : List Char) : Nat :=
  cs.foldl (fun a c => a * 10 + digitVal c) 0

/-- The body of `LRCParser.parse_lrc_time` after the bracket strip:
split on the first `:`, split the remainder on the first `.`; a 2-digit
fraction is scaled by 10, otherwise the first 3 fraction characters are
converted. A `ValueError` becomes `Except.error` carrying the
bracket-stripped text, as the Python message interpolates `time_str`
after its reassignment. -/
def parseTimeCore (t : List Char) : Except String Int :=
  match splitOnce ':' t with
  | none => .error (String.mk t)
  | some (minutes, rest) =>
    if '.' ∈ rest then
      match splitOnce '.' rest with
      | none => .error (String.mk t)
      | some (seconds, frac) =>
        match pyInt minutes, pyInt seconds,
          (if frac.length = 2 then (pyInt frac).map (fun n => n * 10)
           else pyInt (frac.take 3)) with
        | some m, some s, some f => .ok (m * 60000 + s * 1000 + f)
        | _, _, _ => .error (String.mk t)
    else
      match pyInt minutes, pyInt rest with
      | some m, some s => .ok (m * 60000 + s * 1000)
      | _, _ => .error (String.mk t)

/-- `LRCParser.parse_lrc_time` (src/Lyrics.py lines 10-41). -/
def parse_lrc_time (time_str : String) : Except String Int :=
  parseTimeCore (stripBoth isBracket time_str.data)

instance {ε α : Type} [DecidableEq ε] [DecidableEq α] : DecidableEq (Except ε α) := fun a b =>
  match a, b with
  | .ok x, .ok y =>
    if h : x = y then isTrue (by rw [h]) else isFalse (fun hc => by cases hc; exact h rfl)
  | .error x, .error y =>
    if h : x = y then isTrue (by rw [h]) else isFalse (fun hc => by cases hc; exact h rfl)
  | .ok _, .error _ => isFalse (fun hc => by cases hc)
  | .error _, .ok _ => isFalse (fun hc => by cases hc)

/-- Decimal digits, most significant first; structural recursion on a
fuel argument so that the kernel can evaluate it (`n + 1` fuel always
suffices, since `n / 10 < n`). -/
def natToDigitsF : Nat → Nat → List Char
  | 0, _ => []
  | fuel + 1, n =>
    if n < 10 then [Char.ofNat (48 + n)]
    else natToDigitsF fuel (n / 10) ++ [Char.ofNat (48 + n % 10)]

/-- Decimal digits of `n`, most significant first (Python `str(n)` for a
non-negative `n`). -/
def natToDigits (n : Nat) : List Char := natToDigitsF (n + 1) n

/-- Left pad with zeros to width `w` (Python `str.zfill`). -/
def zfill (w : Nat) (cs : List Char) : List Char :=
  List.replicate (w - cs.length) '0' ++ cs

/-- Python format spec `0wd`: zero padding counts the sign. -/
def pyFormat0d (w : Nat) (n : Int) : List Char :=
  if n < 0 then '-' :: zfill (w - 1) (natToDigits n.natAbs)
  else zfill w (natToDigits n.toNat)

/-- `LRCParser.format_lrc_time` (src/Lyrics.py lines 43-57); Python `//`
and `%` are floor division, hence `Int.fdiv`/`Int.fmod`. -/
def format_lrc_time (milliseconds : Int) : String :=
  let minutes := Int.fdiv milliseconds 60000
  let seconds := Int.fdiv (Int.fmod milliseconds 60000) 1000
  let millis := Int.fmod milliseconds 1000
  String.mk ('[' :: (pyFormat0d 2 minutes ++ ':' :: pyFormat0d 2 seconds ++
    '.' :: pyFormat0d 3 millis ++ [']']))

/-- Match one maximal nonempty run of digits followed by the literal
`stop`; return the digits and the remainder after `stop`. Each `\d+` of
the tag pattern is followed by a non-digit literal, so this maximal
munch is exactly the regex semantics. -/
def matchDigitsThen (stop : Char) (cs : List Char) : Option (List Char × List Char) :=
  match cs.dropWhile isDigit with
  | c :: r =>
    if cs.takeWhile isDigit ≠ [] ∧ c = stop then some (cs.takeWhile isDigit, r)
    else none
  | [] => none

/-- Match the pattern `\[\d+:\d+\.\d+\]` at the head of the list; return
the capture group (the bracket interior) and the remainder. -/
def matchTag : List Char → Option (List Char × List Char)
  | [] => none
  | c :: rest =>
    if c = '[' then
      (matchDigitsThen ':' rest).bind fun p1 =>
        (matchDigitsThen '.' p1.2).bind fun p2 =>
          (matchDigitsThen ']' p2.2).map fun p3 =>
            (p1.1 ++ ':' :: p2.1 ++ '.' :: p3.1, p3.2)
    else none

/-- Simultaneous `re.findall` and `re.sub(..., '')` for the tag pattern:
scan left to right; at each position try a match, on success record the
capture and continue after the match, otherwise keep the character.
Structural recursion on a fuel argument so that the kernel can evaluate
it; `cs.length` fuel suffices since every step consumes a character. -/
def scanTagsF : Nat → List Char → List (List Char) × List Char
  | 0, _ => ([], [])
  | _, [] => ([], [])
  | fuel + 1, c :: rest =>
    match matchTag (c :: rest) with
    | some (cap, r) =>
      let p := scanTagsF fuel r
      (cap :: p.1, p.2)
    | none =>
      let p := scanTagsF fuel rest
      (p.1, c :: p.2)

def scanTags (cs : List Char) : List (List Char) × List Char := scanTagsF cs.length cs

/-- One parsed lyric entry: the dict
`\x7b'time': time_ms, 'content': content\x7d` of the Python source. -/
structure LyricEntry where
  time : Int
  content : String
deriving DecidableEq, Repr

/-- Body of the per-line loop of `LRCParser.parse_lrc_content`
(src/Lyrics.py lines 75-95): the entries contributed by one physical
line, paired with the offending tag texts for which a decoding
diagnostic would be printed. -/
def lineEntriesDiag (line : List Char) : List LyricEntry × List String :=
  let stripped := pyStrip line
  let scanned := scanTags stripped
  let content := pyStrip scanned.2
  if stripped = [] ∨ scanned.1 = [] ∨ content = [] then ([], [])
  else
    (scanned.1.filterMap (fun cap =>
       match parse_lrc_time (String.mk cap) with
       | .ok t => some ⟨t, String.mk content⟩
       | .error _ => none),
     scanned.1.filterMap (fun cap =>
       match parse_lrc_time (String.mk cap) with
       | .ok _ => none
       | .error _ => some (String.mk cap)))

/-- The entry list built by `LRCParser.parse_lrc_content` before the
final sort, in encounter order. -/
def rawLyrics (text : String) : List LyricEntry :=
  if pyStrip text.data = [] then []
  else ((pySplit '\n' (pyStrip text.data)).map (fun l => (lineEntriesDiag l).1)).flatten

/-- The comparison of `lyrics.sort(key=lambda x: x['time'])`. -/
def entryLE (a b : LyricEntry) : Bool := decide (a.time ≤ b.time)

/-- `LRCParser.parse_lrc_content` (src/Lyrics.py lines 59-99); Python
`list.sort` is stable, as is `List.mergeSort`. -/
def parse_lrc_content (text : String) : List LyricEntry :=
  (rawLyrics text).mergeSort entryLE

/-- The diagnostics printed while parsing `text`: the offending texts of
the tags whose decoding failed. -/
def parseDiagnostics (text : String) : List String :=
  if pyStrip text.data = [] then []
  else ((pySplit '\n' (pyStrip text.data)).map (fun l => (lineEntriesDiag l).2)).flatten

/-- Python dict insertion: an existing key keeps its position and
receives the new value, a new key is appended. -/
def dictInsert (d : List (Int × String)) (k : Int) (v : String) : List (Int × String) :=
  if d.any (fun p => p.1 == k) then d.map (fun p => if p.1 == k then (k, v) else p)
  else d ++ [(k, v)]

/-- The dict comprehensions of src/Lyrics.py lines 124-125, collapsing a
document into a timestamp-to-text association in encounter order. -/
def buildDict (entries : List LyricEntry) : List (Int × String) :=
  entries.foldl (fun d e => dictInsert d e.time e.content) []

/-- Python `dict.get(k, default)`. -/
def dictGetD (d : List (Int × String)) (k : Int) (dflt : String) : String :=
  match d.find? (fun p => p.1 == k) with
  | some p => p.2
  | none => dflt

/-- Body of the merge loop (src/Lyrics.py lines 132-145) for one
timestamp; `none` when neither side has a non-empty text. -/
def mergeLine (original_dict translated_dict : List (Int × String)) (time_ms : Int) :
    Option String :=
  let oc := dictGetD original_dict time_ms ""
  let tc := dictGetD translated_dict time_ms ""
  if oc ≠ "" ∧ tc ≠ "" then
    some (format_lrc_time time_ms ++ " " ++ oc ++ " / " ++ tc)
  else if oc ≠ "" then some (format_lrc_time time_ms ++ " " ++ oc)
  else if tc ≠ "" then some (format_lrc_time time_ms ++ " " ++ tc)
  else none

/-- `LyricsMerger.merge_lyrics` (src/Lyrics.py lines 108-147):
`sorted(set(keys) | set(keys))` is the deduplicated, ascending-sorted
union of the key lists. -/
def merge_lyrics (original_text translated_text : String) : List String :=
  let original_dict := buildDict (parse_lrc_content original_text)
  let translated_dict := buildDict (parse_lrc_content translated_text)
  let all_times :=
    ((original_dict.map Prod.fst ++ translated_dict.map Prod.fst).dedup).mergeSort
      (fun a b => decide (a ≤ b))
  all_times.filterMap (mergeLine original_dict translated_dict)

theorem matchDigitsThen_eq {stop : Char} {cs d r : List Char}
    (h : matchDigitsThen stop cs = some (d, r)) :
    d ≠ [] ∧ d.all isDigit ∧ cs = d ++ stop :: r := by
  unfold matchDigitsThen at h
  split at h
  case _ c r2 heq =>
    split at h
    case isTrue hc =>
      obtain ⟨hne, hstop⟩ := hc
      cases h
      refine ⟨hne, ?_, ?_⟩
      · rw [List.all_eq_true]
        intro x hx
        exact List.mem_takeWhile_imp hx
      · subst hstop
        conv_lhs => rw [← List.takeWhile_append_dropWhile isDigit cs]
        rw [heq]
    case isFalse => cases h
  case _ => cases h

theorem matchTag_eq {cs cap r : List Char} (h : matchTag cs = some (cap, r)) :
    ∃ d1 d2 d3, d1 ≠ [] ∧ d2 ≠ [] ∧ d3 ≠ [] ∧
      d1.all isDigit ∧ d2.all isDigit ∧ d3.all isDigit ∧
      cap = d1 ++ ':' :: d2 ++ '.' :: d3 ∧
      cs = '[' :: d1 ++ ':' :: d2 ++ '.' :: d3 ++ ']' :: r := by
  cases cs with
  | nil => cases h
  | cons c rest =>
    simp only [matchTag] at h
    split at h
    case isFalse => cases h
    case isTrue hc =>
      subst hc
      rw [Option.bind_eq_some] at h
      obtain ⟨⟨d1, r1⟩, h1, h⟩ := h
      rw [Option.bind_eq_some] at h
      obtain ⟨⟨d2, r2⟩, h2, h⟩ := h
      rw [Option.map_eq_some'] at h
      obtain ⟨⟨d3, r3⟩, h3, h⟩ := h
      cases h
      obtain ⟨hne1, hd1, he1⟩ := matchDigitsThen_eq h1
      obtain ⟨hne2, hd2, he2⟩ := matchDigitsThen_eq h2
      obtain ⟨hne3, hd3, he3⟩ := matchDigitsThen_eq h3
      dsimp only at he2 he3
      exact ⟨d1, d2, d3, hne1, hne2, hne3, hd1, hd2, hd3, rfl, by simp [he1, he2, he3]⟩

theorem matchTag_length {cs cap r : List Char} (h : matchTag cs = some (cap, r)) :
    r.length < cs.length := by
  obtain ⟨d1, d2, d3, -, -, -, -, -, -, -, hcs⟩ := matchTag_eq h
  rw [hcs]
  simp
  omega

theorem scanTagsF_fuel {fuel g : Nat} : ∀ {cs : List Char}, cs.length ≤ fuel →
    cs.length ≤ g → scanTagsF fuel cs = scanTagsF g cs := by
  induction fuel generalizing g with
  | zero =>
    intro cs h1 _
    rw [List.length_eq_zero.mp (Nat.le_zero.mp h1)]
    cases g <;> rfl
  | succ f ih =>
    intro cs h1 h2
    cases cs with
    | nil => cases g <;> rfl
    | cons c rest =>
      cases g with
      | zero => simp only [List.length_cons] at h2; omega
      | succ g =>
        simp only [List.length_cons] at h1 h2
        cases hm : matchTag (c :: rest) with
        | some p =>
          obtain ⟨cap, r⟩ := p
          have hl := matchTag_length hm
          simp only [List.length_cons] at hl
          simp only [scanTagsF, hm]
          rw [@ih g r (by omega) (by omega)]
        | none =>
          simp only [scanTagsF, hm]
          rw [@ih g rest (by omega) (by omega)]

/-- The unfolding equation of `scanTags` as plain recursion. -/
theorem scanTags_cons (c : Char) (rest : List Char) :
    scanTags (c :: rest) =
      match matchTag (c :: rest) with
      | some (cap, r) => (cap :: (scanTags r).1, (scanTags r).2)
      | none => ((scanTags rest).1, c :: (scanTags rest).2) := by
  cases hm : matchTag (c :: rest) with
  | some p =>
    obtain ⟨cap, r⟩ := p
    have hl := matchTag_length hm
    simp only [List.length_cons] at hl
    simp only [scanTags, List.length_cons, scanTagsF, hm]
    rw [@scanTagsF_fuel rest.length r.length r (by omega) (by omega)]
  | none =>
    simp only [scanTags, List.length_cons, scanTagsF, hm]

/-- Computation bridge: when the raw entry list is already sorted, the
stable sort leaves it unchanged. -/
theorem parse_lrc_content_eq_of {text : String} {L : List LyricEntry}
    (hraw : rawLyrics text = L) (hs : L.Pairwise (fun a b => a.time ≤ b.time)) :
    parse_lrc_content text = L := by
  rw [parse_lrc_content, hraw]
  exact List.mergeSort_of_sorted (hs.imp (fun h => by simpa [entryLE] using h))

/-- Computation bridge for `merge_lyrics`: with the two parses given and
the deduplicated key list already sorted, the merge is the structural
`filterMap`. -/
theorem merge_lyrics_eq_of {A B : String} {LA LB : List LyricEntry}
    (hA : parse_lrc_content A = LA) (hB : parse_lrc_content B = LB)
    (hts : (((buildDict LA).map Prod.fst ++ (buildDict LB).map Prod.fst).dedup).Pairwise
      (fun a b => a ≤ b)) :
    merge_lyrics A B =
      (((buildDict LA).map Prod.fst ++ (buildDict LB).map Prod.fst).dedup).filterMap
        (mergeLine (buildDict LA) (buildDict LB)) := by
  simp only [merge_lyrics]
  rw [hA, hB]
  rw [List.mergeSort_of_sorted (hts.imp (fun h => decide_eq_true h))]

/-! ### Character facts -/

theorem isDigit_toNat {c : Char} (h : isDigit c = true) : 48 ≤ c.toNat ∧ c.toNat ≤ 57 := by
  simpa [isDigit] using h

theorem isDigit_ne {c x : Char} (h : isDigit c = true) (hx : isDigit x = false) : c ≠ x := by
  intro e
  subst e
  rw [h] at hx
  cases hx

theorem isBracket_of_isDigit {c : Char} (h : isDigit c = true) : isBracket c = false := by
  simp only [isBracket, Bool.or_eq_false_iff, decide_eq_false_iff_not]
  constructor <;> (intro e; subst e; exact absurd h (by decide))

theorem isPySpace_of_isDigit {c : Char} (h : isDigit c = true) : isPySpace c = false := by
  simp only [isPySpace, Bool.or_eq_false_iff, decide_eq_false_iff_not]
  refine ⟨⟨⟨⟨⟨?_, ?_⟩, ?_⟩, ?_⟩, ?_⟩, ?_⟩ <;> (intro e; subst e; exact absurd h (by decide))

/-! ### Stripping -/

theorem dropWhile_eq_self_of_head {p : Char → Bool} {cs : List Char}
    (h : ∀ c, cs.head? = some c → p c = false) : cs.dropWhile p = cs := by
  cases cs with
  | nil => rfl
  | cons a l => simp [List.dropWhile_cons, h a rfl]

theorem stripBoth_eq_self {p : Char → Bool} {cs : List Char}
    (h1 : ∀ c, cs.head? = some c → p c = false)
    (h2 : ∀ c, cs.getLast? = some c → p c = false) :
    stripBoth p cs = cs := by
  unfold stripBoth
  rw [dropWhile_eq_self_of_head h1,
    dropWhile_eq_self_of_head (fun c hc => h2 c (by rwa [List.head?_reverse] at hc))]
  exact List.reverse_reverse cs

theorem stripBoth_wrap {p : Char → Bool} {a b : Char} {mid : List Char}
    (ha : p a = true) (hb : p b = true)
    (h1 : ∀ c, mid.head? = some c → p c = false)
    (h2 : ∀ c, mid.getLast? = some c → p c = false) :
    stripBoth p (a :: (mid ++ [b])) = mid := by
  cases mid with
  | nil => simp [stripBoth, List.dropWhile_cons, ha, hb]
  | cons c l =>
    have hc : p c = false := h1 c rfl
    unfold stripBoth
    have hd1 : List.dropWhile p (a :: ((c :: l) ++ [b])) = c :: (l ++ [b]) := by
      rw [List.dropWhile_cons, ha, if_pos rfl, List.cons_append, List.dropWhile_cons, hc]
      simp
    rw [hd1]
    have hrev : (c :: (l ++ [b])).reverse = b :: (c :: l).reverse := by simp
    rw [hrev, List.dropWhile_cons, hb, if_pos rfl,
      dropWhile_eq_self_of_head (fun x hx => h2 x (by rwa [List.head?_reverse] at hx)),
      List.reverse_reverse]

/-! ### splitOnce -/

theorem splitOnce_append {sep : Char} {m rest : List Char} (hm : ∀ c ∈ m, c ≠ sep) :
    splitOnce sep (m ++ sep :: rest) = some (m, rest) := by
  induction m with
  | nil => simp [splitOnce]
  | cons c l ih =>
    have hc : c ≠ sep := hm c (List.mem_cons_self c l)
    rw [List.cons_append]
    simp only [splitOnce, if_neg hc, ih (fun x hx => hm x (List.mem_cons_of_mem c hx)),
      Option.map_some']

theorem splitOnce_eq_none {sep : Char} {cs : List Char} :
    splitOnce sep cs = none ↔ sep ∉ cs := by
  induction cs with
  | nil => simp [splitOnce]
  | cons c l ih =>
    by_cases hc : c = sep
    · subst hc
      simp [splitOnce]
    · simp [splitOnce, hc, Option.map_eq_none', ih, Ne.symm hc]

theorem splitOnce_eq_some {sep : Char} {cs a b : List Char}
    (h : splitOnce sep cs = some (a, b)) :
    cs = a ++ sep :: b ∧ ∀ c ∈ a, c ≠ sep := by
  induction cs generalizing a with
  | nil => cases h
  | cons c l ih =>
    by_cases hc : c = sep
    · subst hc
      simp only [splitOnce, if_pos rfl, Option.some.injEq, Prod.mk.injEq] at h
      obtain ⟨rfl, rfl⟩ := h
      simp
    · simp only [splitOnce, if_neg hc, Option.map_eq_some'] at h
      obtain ⟨⟨a1, b1⟩, hsp, heq⟩ := h
      simp only [Prod.mk.injEq] at heq
      obtain ⟨ha1, hb1⟩ := heq
      subst hb1
      subst ha1
      obtain ⟨he, hall⟩ := ih hsp
      constructor
      · rw [he]
        rfl
      · intro x hx
        rcases List.mem_cons.mp hx with rfl | hx2
        · exact hc
        · exact hall x hx2

/-! ### pyInt on digit strings -/

theorem digitsURest_digits : ∀ {cs : List Char} (acc : Nat), cs.all isDigit →
    digitsURest acc cs = some (cs.foldl (fun a c => a * 10 + digitVal c) acc) := by
  intro cs
  induction cs with
  | nil => intro acc _; rfl
  | cons c l ih =>
    intro acc hd
    simp only [List.all_cons, Bool.and_eq_true] at hd
    obtain ⟨hc, hl⟩ := hd
    have hne : c ≠ '_' := isDigit_ne hc (by decide)
    rw [digitsURest.eq_def]
    simp only [if_neg hne, if_pos hc, List.foldl_cons]
    exact ih _ hl

theorem pyInt_digits {cs : List Char} (hne : cs ≠ []) (hd : cs.all isDigit) :
    pyInt cs = some (decodeDigits cs : Int) := by
  cases cs with
  | nil => exact absurd rfl hne
  | cons c l =>
    simp only [List.all_cons, Bool.and_eq_true] at hd
    obtain ⟨hc, hl⟩ := hd
    have hstrip : stripBoth isPySpace (c :: l) = c :: l := by
      apply stripBoth_eq_self
      · intro x hx
        rw [List.head?_cons, Option.some.injEq] at hx
        subst hx
        exact isPySpace_of_isDigit hc
      · intro x hx
        have hmem : x ∈ c :: l := List.mem_of_mem_getLast? hx
        have : isDigit x = true := by
          rcases List.mem_cons.mp hmem with rfl | hx2
          · exact hc
          · exact (List.all_eq_true.mp hl) x hx2
        exact isPySpace_of_isDigit this
    have hplus : c ≠ '+' := isDigit_ne hc (by decide)
    have hminus : c ≠ '-' := isDigit_ne hc (by decide)
    simp only [pyInt, hstrip, if_neg hplus, if_neg hminus, parseDigitsU, if_pos hc,
      digitsURest_digits (digitVal c) hl, Option.map_some', Option.some.injEq]
    simp [decodeDigits]

/-! ### Decimal printing -/

theorem digitChar_facts {d : Nat} (h : d < 10) :
    isDigit (Char.ofNat (48 + d)) = true ∧ digitVal (Char.ofNat (48 + d)) = d := by
  interval_cases d <;> exact ⟨by decide, by decide⟩

theorem decodeDigits_append_singleton (l : List Char) (c : Char) :
    decodeDigits (l ++ [c]) = decodeDigits l * 10 + digitVal c := by
  unfold decodeDigits
  rw [List.foldl_append]
  rfl

theorem natToDigitsF_all {fuel n : Nat} : (natToDigitsF fuel n).all isDigit = true := by
  induction fuel generalizing n with
  | zero => rfl
  | succ f ih =>
    simp only [natToDigitsF]
    by_cases h10 : n < 10
    · rw [if_pos h10]
      simp [(digitChar_facts h10).1]
    · rw [if_neg h10, List.all_append]
      have hm := (digitChar_facts (Nat.mod_lt n (by omega))).1
      simp [ih, hm]

theorem natToDigitsF_ne_nil {fuel n : Nat} (h : 0 < fuel) : natToDigitsF fuel n ≠ [] := by
  cases fuel with
  | zero => omega
  | succ f =>
    simp only [natToDigitsF]
    by_cases h10 : n < 10
    · rw [if_pos h10]
      simp
    · rw [if_neg h10]
      simp

theorem natToDigitsF_decode {fuel n : Nat} (h : n < fuel) :
    decodeDigits (natToDigitsF fuel n) = n := by
  induction fuel generalizing n with
  | zero => omega
  | succ f ih =>
    simp only [natToDigitsF]
    by_cases h10 : n < 10
    · rw [if_pos h10]
      have := (digitChar_facts h10).2
      simp [decodeDigits, this]
    · rw [if_neg h10, decodeDigits_append_singleton, ih (by omega),
        (digitChar_facts (Nat.mod_lt n (by omega))).2]
      omega

theorem natToDigitsF_length {fuel k n : Nat} (hf : n < fuel) (hk : 1 ≤ k)
    (hn : n < 10 ^ k) : (natToDigitsF fuel n).length ≤ k := by
  induction fuel generalizing k n with
  | zero => omega
  | succ f ih =>
    simp only [natToDigitsF]
    by_cases h10 : n < 10
    · rw [if_pos h10]
      simpa using hk
    · rw [if_neg h10, List.length_append]
      have hk2 : 2 ≤ k := by
        by_contra hlt
        have hk1 : k = 1 := by omega
        subst hk1
        simp at hn
        omega
      have hpow : (10 : Nat) ^ k = 10 ^ (k - 1) * 10 := by
        conv_lhs => rw [show k = (k - 1) + 1 by omega]
        rw [pow_succ]
      have hdiv : n / 10 < 10 ^ (k - 1) := by
        rw [Nat.div_lt_iff_lt_mul (by omega : 0 < 10), ← hpow]
        exact hn
      have := @ih (k - 1) (n / 10) (by omega) (by omega) hdiv
      simp only [List.length_singleton]
      omega

theorem natToDigits_all (n : Nat) : (natToDigits n).all isDigit = true := natToDigitsF_all

theorem natToDigits_ne_nil (n : Nat) : natToDigits n ≠ [] := natToDigitsF_ne_nil (by omega)

theorem natToDigits_decode (n : Nat) : decodeDigits (natToDigits n) = n :=
  natToDigitsF_decode (by omega)

theorem natToDigits_length {k n : Nat} (hk : 1 ≤ k) (hn : n < 10 ^ k) :
    (natToDigits n).length ≤ k := natToDigitsF_length (by omega) hk hn

theorem zfill_all {w : Nat} {cs : List Char} (h : cs.all isDigit = true) :
    (zfill w cs).all isDigit = true := by
  unfold zfill
  rw [List.all_append, h, Bool.and_true, List.all_eq_true]
  intro x hx
  rw [List.eq_of_mem_replicate hx]
  decide

theorem zfill_ne_nil {w : Nat} {cs : List Char} (h : cs ≠ []) : zfill w cs ≠ [] := by
  simp [zfill, h]

theorem foldl_replicate_zero (k : Nat) :
    List.foldl (fun a c => a * 10 + digitVal c) 0 (List.replicate k '0') = 0 := by
  induction k with
  | zero => rfl
  | succ m ih =>
    rw [List.replicate_succ, List.foldl_cons]
    exact ih

theorem decodeDigits_zfill (w : Nat) (cs : List Char) :
    decodeDigits (zfill w cs) = decodeDigits cs := by
  unfold zfill decodeDigits
  rw [List.foldl_append, foldl_replicate_zero]

theorem zfill_length {w : Nat} {cs : List Char} (h : cs.length ≤ w) :
    (zfill w cs).length = w := by
  simp [zfill]
  omega

/-! ### Decoding well-formed timecodes -/

theorem parseTimeCore_frac {m s f : List Char}
    (hmne : m ≠ []) (hsne : s ≠ []) (hfne : f ≠ [])
    (hmd : m.all isDigit = true) (hsd : s.all isDigit = true)
    (hfd : f.all isDigit = true) :
    parseTimeCore (m ++ ':' :: (s ++ '.' :: f)) =
      .ok ((decodeDigits m : Int) * 60000 + (decodeDigits s : Int) * 1000 +
        (if f.length = 2 then (decodeDigits f : Int) * 10
         else (decodeDigits (f.take 3) : Int))) := by
  have hmc : ∀ c ∈ m, c ≠ ':' :=
    fun c hc => isDigit_ne ((List.all_eq_true.mp hmd) c hc) (by decide)
  have hsc : ∀ c ∈ s, c ≠ '.' :=
    fun c hc => isDigit_ne ((List.all_eq_true.mp hsd) c hc) (by decide)
  have hsplit1 : splitOnce ':' (m ++ ':' :: (s ++ '.' :: f)) = some (m, s ++ '.' :: f) :=
    splitOnce_append hmc
  have hsplit2 : splitOnce '.' (s ++ '.' :: f) = some (s, f) := splitOnce_append hsc
  have hdot : ('.' : Char) ∈ s ++ '.' :: f :=
    List.mem_append_right _ (List.mem_cons_self _ _)
  have hm := pyInt_digits hmne hmd
  have hs := pyInt_digits hsne hsd
  by_cases hlen : f.length = 2
  · have hf2 := pyInt_digits hfne hfd
    simp only [List.append_assoc, List.cons_append, parseTimeCore, hsplit1, if_pos hdot,
      hsplit2, if_pos hlen, hf2, hm, hs, Option.map_some']
  · have ht3ne : f.take 3 ≠ [] := by
      cases f with
      | nil => exact absurd rfl hfne
      | cons a l => simp
    have ht3d : (f.take 3).all isDigit = true := by
      rw [List.all_eq_true] at hfd ⊢
      exact fun x hx => hfd x (List.take_subset _ _ hx)
    have hf3 := pyInt_digits ht3ne ht3d
    simp only [List.append_assoc, List.cons_append, parseTimeCore, hsplit1, if_pos hdot,
      hsplit2, if_neg hlen, hf3, hm, hs]

theorem parseTimeCore_nofrac {m s : List Char}
    (hmne : m ≠ []) (hsne : s ≠ [])
    (hmd : m.all isDigit = true) (hsd : s.all isDigit = true) :
    parseTimeCore (m ++ ':' :: s) =
      .ok ((decodeDigits m : Int) * 60000 + (decodeDigits s : Int) * 1000) := by
  have hmc : ∀ c ∈ m, c ≠ ':' :=
    fun c hc => isDigit_ne ((List.all_eq_true.mp hmd) c hc) (by decide)
  have hsplit1 : splitOnce ':' (m ++ ':' :: s) = some (m, s) := splitOnce_append hmc
  have hnodot : ('.' : Char) ∉ s :=
    fun hin => (isDigit_ne ((List.all_eq_true.mp hsd) _ hin) (by decide)) rfl
  simp only [parseTimeCore, hsplit1, if_neg hnodot, pyInt_digits hmne hmd,
    pyInt_digits hsne hsd]

theorem head_not_bracket {m rest : List Char} (hmne : m ≠ []) (hmd : m.all isDigit = true) :
    ∀ c, (m ++ rest).head? = some c → isBracket c = false := by
  cases m with
  | nil => exact absurd rfl hmne
  | cons a l =>
    intro c hc
    rw [List.cons_append, List.head?_cons, Option.some.injEq] at hc
    subst hc
    simp only [List.all_cons, Bool.and_eq_true] at hmd
    exact isBracket_of_isDigit hmd.1

theorem getLast_not_bracket {pre f : List Char} (hfne : f ≠ []) (hfd : f.all isDigit = true) :
    ∀ c, (pre ++ f).getLast? = some c → isBracket c = false := by
  intro c hc
  rw [List.getLast?_append] at hc
  obtain ⟨y, hy⟩ := Option.isSome_iff_exists.mp (List.getLast?_isSome.mpr hfne)
  rw [hy, Option.or_some, Option.some.injEq] at hc
  subst hc
  exact isBracket_of_isDigit
    ((List.all_eq_true.mp hfd) y (List.mem_of_mem_getLast? (show y ∈ f.getLast? from hy)))

/-- A bracket-free, digit-delimited interior passes the bracket strip
unchanged. -/
theorem parse_lrc_time_mk {t : List Char}
    (h1 : ∀ c, t.head? = some c → isBracket c = false)
    (h2 : ∀ c, t.getLast? = some c → isBracket c = false) :
    parse_lrc_time (String.mk t) = parseTimeCore t := by
  unfold parse_lrc_time
  rw [show (String.mk t).data = t from rfl, stripBoth_eq_self h1 h2]

/-- Brackets around such an interior are stripped. -/
theorem parse_lrc_time_mk_bracketed {t : List Char}
    (h1 : ∀ c, t.head? = some c → isBracket c = false)
    (h2 : ∀ c, t.getLast? = some c → isBracket c = false) :
    parse_lrc_time (String.mk ('[' :: (t ++ [']']))) = parseTimeCore t := by
  unfold parse_lrc_time
  rw [show (String.mk ('[' :: (t ++ [']']))).data = '[' :: (t ++ [']']) from rfl,
    stripBoth_wrap (by decide) (by decide) h1 h2]

/-! ### Encoding and the round trip -/

theorem pyFormat0d_ofNat (w k : Nat) :
    pyFormat0d w ((k : Nat) : Int) = zfill w (natToDigits k) := by
  unfold pyFormat0d
  rw [if_neg (by omega : ¬((k : Int) < 0)), Int.toNat_ofNat]

theorem format_lrc_time_ofNat (n : Nat) :
    format_lrc_time (n : Int) =
      String.mk ('[' :: (zfill 2 (natToDigits (n / 60000)) ++
        ':' :: zfill 2 (natToDigits (n % 60000 / 1000)) ++
        '.' :: zfill 3 (natToDigits (n % 1000)) ++ [']'])) := by
  have h1 : Int.fdiv (n : Int) 60000 = ((n / 60000 : Nat) : Int) := by
    exact_mod_cast (Int.ofNat_fdiv n 60000).symm
  have h2 : Int.fdiv (Int.fmod (n : Int) 60000) 1000 = ((n % 60000 / 1000 : Nat) : Int) := by
    have ha : Int.fmod (n : Int) 60000 = ((n % 60000 : Nat) : Int) := by
      exact_mod_cast (Int.ofNat_fmod n 60000).symm
    rw [ha]
    exact_mod_cast (Int.ofNat_fdiv (n % 60000) 1000).symm
  have h3 : Int.fmod (n : Int) 1000 = ((n % 1000 : Nat) : Int) := by
    exact_mod_cast (Int.ofNat_fmod n 1000).symm
  simp only [format_lrc_time, h1, h2, h3, pyFormat0d_ofNat]

/-- `decode(encode(ms)) = ms` for every non-negative millisecond count:
the digit blocks survive the bracket strip and the two splits, the
fraction has exactly three digits, and floor division reassembles. -/
theorem parse_format_roundtrip (n : Nat) :
    parse_lrc_time (format_lrc_time (n : Int)) = .ok (n : Int) := by
  rw [format_lrc_time_ofNat]
  have hMne : zfill 2 (natToDigits (n / 60000)) ≠ [] := zfill_ne_nil (natToDigits_ne_nil _)
  have hSne : zfill 2 (natToDigits (n % 60000 / 1000)) ≠ [] :=
    zfill_ne_nil (natToDigits_ne_nil _)
  have hFne : zfill 3 (natToDigits (n % 1000)) ≠ [] := zfill_ne_nil (natToDigits_ne_nil _)
  have hMd := @zfill_all 2 _ (natToDigits_all (n / 60000))
  have hSd := @zfill_all 2 _ (natToDigits_all (n % 60000 / 1000))
  have hFd := @zfill_all 3 _ (natToDigits_all (n % 1000))
  have hFlen : (zfill 3 (natToDigits (n % 1000))).length = 3 :=
    zfill_length (natToDigits_length (by omega) (by omega : n % 1000 < 10 ^ 3))
  have hshape : zfill 2 (natToDigits (n / 60000)) ++
      ':' :: zfill 2 (natToDigits (n % 60000 / 1000)) ++
      '.' :: zfill 3 (natToDigits (n % 1000)) ++ [']'] =
      (zfill 2 (natToDigits (n / 60000)) ++
        ':' :: (zfill 2 (natToDigits (n % 60000 / 1000)) ++
          '.' :: zfill 3 (natToDigits (n % 1000)))) ++ [']'] := by
    simp [List.append_assoc]
  rw [hshape, parse_lrc_time_mk_bracketed
    (head_not_bracket hMne hMd)
    (by
      intro c hc
      have : zfill 2 (natToDigits (n / 60000)) ++
          ':' :: (zfill 2 (natToDigits (n % 60000 / 1000)) ++
            '.' :: zfill 3 (natToDigits (n % 1000))) =
          (zfill 2 (natToDigits (n / 60000)) ++
            ':' :: zfill 2 (natToDigits (n % 60000 / 1000)) ++ ['.']) ++
          zfill 3 (natToDigits (n % 1000)) := by
        simp [List.append_assoc]
      rw [this] at hc
      exact getLast_not_bracket hFne hFd c hc),
    parseTimeCore_frac hMne hSne hFne hMd hSd hFd]
  rw [if_neg (by rw [hFlen]; omega)]
  rw [List.take_of_length_le (by rw [hFlen])]
  rw [decodeDigits_zfill, decodeDigits_zfill, decodeDigits_zfill,
    natToDigits_decode, natToDigits_decode, natToDigits_decode]
  congr 1
  omega

/-! ### Captures of the tag scanner -/

/-- Every capture returned by the scanner has the shape
`digits ++ ':' :: digits ++ '.' :: digits`. -/
theorem scanTags_captures : ∀ (n : Nat) (cs : List Char), cs.length ≤ n →
    ∀ cap ∈ (scanTags cs).1, ∃ d1 d2 d3, d1 ≠ [] ∧ d2 ≠ [] ∧ d3 ≠ [] ∧
      d1.all isDigit = true ∧ d2.all isDigit = true ∧ d3.all isDigit = true ∧
      cap = d1 ++ ':' :: (d2 ++ '.' :: d3) := by
  intro n
  induction n with
  | zero =>
    intro cs hlen cap hcap
    rw [List.length_eq_zero.mp (Nat.le_zero.mp hlen)] at hcap
    simp [scanTags, scanTagsF] at hcap
  | succ k ih =>
    intro cs hlen cap hcap
    cases cs with
    | nil => simp [scanTags, scanTagsF] at hcap
    | cons c rest =>
      rw [scanTags_cons] at hcap
      cases hm : matchTag (c :: rest) with
      | some p =>
        obtain ⟨cp, r⟩ := p
        rw [hm] at hcap
        rcases List.mem_cons.mp hcap with rfl | hmem
        · obtain ⟨d1, d2, d3, h1, h2, h3, h4, h5, h6, hcapeq, -⟩ := matchTag_eq hm
          exact ⟨d1, d2, d3, h1, h2, h3, h4, h5, h6, by simpa [List.append_assoc] using hcapeq⟩
        · have hl := matchTag_length hm
          simp only [List.length_cons] at hlen hl
          exact ih r (by omega) cap hmem
      | none =>
        rw [hm] at hcap
        simp only [List.length_cons] at hlen
        exact ih rest (by omega) cap hcap

/-- Every capture decodes successfully: the failure branch of the
per-tag try/except in `parse_lrc_content` is unreachable. -/
theorem capture_decodes {cs cap : List Char} (h : cap ∈ (scanTags cs).1) :
    ∃ v : Int, parse_lrc_time (String.mk cap) = .ok v := by
  obtain ⟨d1, d2, d3, h1, h2, h3, h4, h5, h6, rfl⟩ :=
    scanTags_captures cs.length cs (Nat.le_refl _) cap h
  have hgl : ∀ c, (d1 ++ ':' :: (d2 ++ '.' :: d3)).getLast? = some c → isBracket c = false := by
    intro c hc
    have hshape : d1 ++ ':' :: (d2 ++ '.' :: d3) = (d1 ++ ':' :: d2 ++ ['.']) ++ d3 := by
      simp [List.append_assoc]
    rw [hshape] at hc
    exact getLast_not_bracket h3 h6 c hc
  refine ⟨(decodeDigits d1 : Int) * 60000 + (decodeDigits d2 : Int) * 1000 +
    (if d3.length = 2 then (decodeDigits d3 : Int) * 10
     else (decodeDigits (d3.take 3) : Int)), ?_⟩
  rw [parse_lrc_time_mk (head_not_bracket h1 h4) hgl]
  exact parseTimeCore_frac h1 h2 h3 h4 h5 h6

/-- A capture always contains a dot: a bracketed `mm:ss` without a
fraction is never recognised as a timecode tag. -/
theorem capture_has_dot {cs cap : List Char} (h : cap ∈ (scanTags cs).1) :
    '.' ∈ cap := by
  obtain ⟨d1, d2, d3, -, -, -, -, -, -, rfl⟩ :=
    scanTags_captures cs.length cs (Nat.le_refl _) cap h
  exact List.mem_append_right _
    (List.mem_cons_of_mem _ (List.mem_append_right _ (List.mem_cons_self _ _)))

/-! ### Line entries -/

theorem filterMap_length_of_isSome {α β : Type} {f : α → Option β} : ∀ {l : List α},
    (∀ x ∈ l, (f x).isSome) → (l.filterMap f).length = l.length := by
  intro l
  induction l with
  | nil => intro _; rfl
  | cons a l ih =>
    intro h
    obtain ⟨b, hb⟩ := Option.isSome_iff_exists.mp (h a (List.mem_cons_self _ _))
    rw [List.filterMap_cons, hb, List.length_cons, List.length_cons,
      ih (fun x hx => h x (List.mem_cons_of_mem a hx))]

/-- The parser prints no diagnostic for any line: every scanned tag
decodes. -/
theorem lineEntriesDiag_snd (line : List Char) : (lineEntriesDiag line).2 = [] := by
  simp only [lineEntriesDiag]
  split
  · rfl
  · simp only [List.filterMap_eq_nil_iff]
    intro cap hcap
    obtain ⟨v, hv⟩ := capture_decodes hcap
    rw [hv]

theorem lineEntriesDiag_fst_length (line : List Char)
    (hstrip : pyStrip line ≠ []) (hcaps : (scanTags (pyStrip line)).1 ≠ [])
    (hcontent : pyStrip (scanTags (pyStrip line)).2 ≠ []) :
    (lineEntriesDiag line).1.length = (scanTags (pyStrip line)).1.length := by
  simp only [lineEntriesDiag]
  rw [if_neg (by simp [hstrip, hcaps, hcontent])]
  apply filterMap_length_of_isSome
  intro cap hcap
  obtain ⟨v, hv⟩ := capture_decodes hcap
  simp [hv]

theorem lineEntriesDiag_content {line : List Char} {e : LyricEntry}
    (h : e ∈ (lineEntriesDiag line).1) :
    e.content = String.mk (pyStrip (scanTags (pyStrip line)).2) ∧ e.content ≠ "" := by
  simp only [lineEntriesDiag] at h
  split at h
  · cases h
  case isFalse hneg =>
    rw [List.mem_filterMap] at h
    obtain ⟨cap, hcap, hsome⟩ := h
    have hcontent : pyStrip (scanTags (pyStrip line)).2 ≠ [] := by
      intro hc
      exact hneg (Or.inr (Or.inr hc))
    cases hv : parse_lrc_time (String.mk cap) with
    | ok v =>
      rw [hv] at hsome
      cases hsome
      refine ⟨rfl, ?_⟩
      intro hempty
      exact hcontent (congrArg String.data hempty)
    | error msg =>
      rw [hv] at hsome
      cases hsome

/-! ### Documents -/

theorem mem_rawLyrics {text : String} {e : LyricEntry} (h : e ∈ rawLyrics text) :
    ∃ line, e ∈ (lineEntriesDiag line).1 := by
  unfold rawLyrics at h
  split at h
  · cases h
  · rw [List.mem_flatten] at h
    obtain ⟨l, hl, he⟩ := h
    rw [List.mem_map] at hl
    obtain ⟨line, -, rfl⟩ := hl
    exact ⟨line, he⟩

theorem entryLE_trans (a b c : LyricEntry) : entryLE a b → entryLE b c → entryLE a c := by
  simp only [entryLE, decide_eq_true_eq]
  omega

theorem entryLE_total (a b : LyricEntry) : entryLE a b || entryLE b a := by
  simp only [entryLE]
  by_cases h : a.time ≤ b.time
  · simp [h]
  · simp [decide_eq_true_eq, le_of_lt (lt_of_not_le h)]

theorem parse_content_mem {text : String} {e : LyricEntry} :
    e ∈ parse_lrc_content text ↔ e ∈ rawLyrics text := by
  unfold parse_lrc_content
  exact List.mem_mergeSort

/-- Every entry of a parsed document has a non-empty content. -/
theorem parse_content_ne_empty {text : String} {e : LyricEntry}
    (h : e ∈ parse_lrc_content text) : e.content ≠ "" := by
  obtain ⟨line, hline⟩ := mem_rawLyrics (parse_content_mem.mp h)
  exact (lineEntriesDiag_content hline).2

/-- A parsed document is sorted by timestamp. -/
theorem parse_content_sorted (text : String) :
    (parse_lrc_content text).Pairwise (fun a b => a.time ≤ b.time) := by
  have h := List.sorted_mergeSort entryLE_trans entryLE_total (rawLyrics text)
  exact h.imp (fun hab => by simpa [entryLE] using hab)

/-- All diagnostics of a whole document parse are empty. -/
theorem parseDiagnostics_empty (text : String) : parseDiagnostics text = [] := by
  unfold parseDiagnostics
  split
  · rfl
  · rw [List.flatten_eq_nil_iff]
    intro l hl
    rw [List.mem_map] at hl
    obtain ⟨line, -, rfl⟩ := hl
    exact lineEntriesDiag_snd line

/-! ### Whitespace-only input -/

theorem pyStrip_all_space {cs : List Char} (h : ∀ c ∈ cs, isPySpace c = true) :
    pyStrip cs = [] := by
  unfold pyStrip stripBoth
  rw [List.dropWhile_eq_nil_iff.mpr (fun a ha => h a ha)]
  rfl

theorem parse_content_space {s : String} (hs : ∀ c ∈ s.data, isPySpace c = true) :
    parse_lrc_content s = [] := by
  unfold parse_lrc_content rawLyrics
  rw [if_pos (pyStrip_all_space hs)]
  exact List.mergeSort_nil

/-! ### The timestamp association -/

theorem find?_map_overwrite (k : Int) (v : String) : ∀ (d : List (Int × String)),
    d.any (fun p => p.1 == k) = true →
    (d.map (fun p => if p.1 == k then (k, v) else p)).find? (fun p => p.1 == k) =
      some (k, v) := by
  intro d
  induction d with
  | nil => intro h; simp at h
  | cons p rest ih =>
    intro hany
    rw [List.map_cons]
    by_cases hp : p.1 = k
    · rw [if_pos (beq_iff_eq.mpr hp)]
      simp only [List.find?_cons, beq_self_eq_true]
    · rw [if_neg (fun hh => hp (beq_iff_eq.mp hh))]
      simp only [List.find?_cons, beq_eq_false_iff_ne.mpr hp]
      apply ih
      rw [List.any_cons] at hany
      rcases Bool.or_eq_true_iff.mp hany with h1 | h2
      · exact absurd (beq_iff_eq.mp h1) hp
      · exact h2

theorem find?_map_overwrite_other (k k' : Int) (v : String) (hne : k' ≠ k) :
    ∀ (d : List (Int × String)),
    (d.map (fun p => if p.1 == k then (k, v) else p)).find? (fun p => p.1 == k') =
      d.find? (fun p => p.1 == k') := by
  intro d
  induction d with
  | nil => rfl
  | cons p rest ih =>
    rw [List.map_cons]
    by_cases hp : p.1 = k
    · rw [if_pos (beq_iff_eq.mpr hp)]
      simp only [List.find?_cons,
        beq_eq_false_iff_ne.mpr (show (k : Int) ≠ k' from fun hh => hne hh.symm),
        beq_eq_false_iff_ne.mpr (show p.1 ≠ k' from fun hh => hne (by rw [← hh, hp]))]
      exact ih
    · rw [if_neg (fun hh => hp (beq_iff_eq.mp hh))]
      cases hq : (p.1 == k') with
      | true => simp only [List.find?_cons, hq]
      | false =>
        simp only [List.find?_cons, hq]
        exact ih

theorem find?_dictInsert_self (d : List (Int × String)) (k : Int) (v : String) :
    (dictInsert d k v).find? (fun p => p.1 == k) = some (k, v) := by
  unfold dictInsert
  split
  case isTrue hany => exact find?_map_overwrite k v d hany
  case isFalse hany =>
    rw [List.find?_append]
    rw [List.find?_eq_none.mpr (fun p hp hpk => hany (List.any_eq_true.mpr ⟨p, hp, hpk⟩)),
      Option.none_or]
    exact List.find?_cons_of_pos _ (by simp)

theorem find?_dictInsert_other (d : List (Int × String)) (k k' : Int) (v : String)
    (hne : k' ≠ k) :
    (dictInsert d k v).find? (fun p => p.1 == k') = d.find? (fun p => p.1 == k') := by
  unfold dictInsert
  split
  · exact find?_map_overwrite_other k k' v hne d
  · rw [List.find?_append]
    have h1 : List.find? (fun p => p.1 == k') [(k, v)] = none := by
      simp only [List.find?_cons,
        beq_eq_false_iff_ne.mpr (show (k : Int) ≠ k' from fun hh => hne hh.symm)]
      rfl
    rw [h1, Option.or_none]

theorem buildDict_append_singleton (es : List LyricEntry) (e : LyricEntry) :
    buildDict (es ++ [e]) = dictInsert (buildDict es) e.time e.content := by
  unfold buildDict
  rw [List.foldl_append]
  rfl

/-- Dict lookup after collapsing a document: the LAST entry with the
given timestamp wins. -/
theorem buildDict_find? (entries : List LyricEntry) (t : Int) :
    (buildDict entries).find? (fun p => p.1 == t) =
      ((entries.filter (fun e => e.time == t)).getLast?).map (fun e => (t, e.content)) := by
  induction entries using List.reverseRecOn with
  | nil => rfl
  | append_singleton es e ih =>
    rw [buildDict_append_singleton]
    by_cases he : e.time = t
    · subst he
      rw [find?_dictInsert_self, List.filter_append,
        show List.filter (fun x => x.time == e.time) [e] = [e] from by simp,
        List.getLast?_concat]
      rfl
    · rw [find?_dictInsert_other _ _ _ _ (fun hh => he hh.symm), List.filter_append,
        show List.filter (fun x => x.time == t) [e] = [] from by simp [he],
        List.append_nil]
      exact ih

theorem dictGetD_buildDict (entries : List LyricEntry) (t : Int) :
    dictGetD (buildDict entries) t "" =
      match (entries.filter (fun e => e.time == t)).getLast? with
      | some e => e.content
      | none => "" := by
  unfold dictGetD
  rw [buildDict_find?]
  cases (entries.filter (fun e => e.time == t)).getLast? <;> rfl

theorem mem_buildDict_keys {entries : List LyricEntry} {t : Int} :
    t ∈ (buildDict entries).map Prod.fst ↔ ∃ e ∈ entries, e.time = t := by
  have h1 : t ∈ (buildDict entries).map Prod.fst ↔
      ((buildDict entries).find? (fun p => p.1 == t)).isSome := by
    rw [List.find?_isSome, List.mem_map]
    constructor
    · rintro ⟨p, hp, rfl⟩
      exact ⟨p, hp, by simp⟩
    · rintro ⟨p, hp, hpred⟩
      exact ⟨p, hp, (beq_iff_eq.mp hpred)⟩
  rw [h1, buildDict_find?]
  cases hgl : (entries.filter (fun e => e.time == t)).getLast? with
  | none =>
    simp only [Option.map_none', Option.isSome_none, Bool.false_eq_true, false_iff]
    rintro ⟨e, he, het⟩
    have hnil := List.getLast?_eq_none_iff.mp hgl
    have := List.filter_eq_nil_iff.mp hnil e he
    simp [het] at this
  | some x =>
    simp only [Option.map_some', Option.isSome_some, true_iff]
    have hx : x ∈ entries.filter (fun e => e.time == t) :=
      List.mem_of_mem_getLast? (show x ∈ _ from hgl)
    rw [List.mem_filter] at hx
    exact ⟨x, hx.1, beq_iff_eq.mp hx.2⟩

/-- A key present in the parsed document yields a non-empty text from
the association. -/
theorem dictGetD_ne_empty {text : String} {t : Int}
    (h : ∃ e ∈ parse_lrc_content text, e.time = t) :
    dictGetD (buildDict (parse_lrc_content text)) t "" ≠ "" := by
  rw [dictGetD_buildDict]
  cases hgl : ((parse_lrc_content text).filter (fun e => e.time == t)).getLast? with
  | none =>
    obtain ⟨e, he, het⟩ := h
    have hnil := List.getLast?_eq_none_iff.mp hgl
    have := List.filter_eq_nil_iff.mp hnil e he
    simp [het] at this
  | some x =>
    have hx : x ∈ (parse_lrc_content text).filter (fun e => e.time == t) :=
      List.mem_of_mem_getLast? (show x ∈ _ from hgl)
    rw [List.mem_filter] at hx
    exact parse_content_ne_empty hx.1

theorem mergeLine_isSome {od td : List (Int × String)} {t : Int}
    (h : dictGetD od t "" ≠ "" ∨ dictGetD td t "" ≠ "") :
    (mergeLine od td t).isSome := by
  unfold mergeLine
  by_cases h1 : dictGetD od t "" ≠ ""
  · by_cases h2 : dictGetD td t "" ≠ ""
    · rw [if_pos ⟨h1, h2⟩]
      rfl
    · rw [if_neg (fun hh => h2 hh.2), if_pos h1]
      rfl
  · have h2 : dictGetD td t "" ≠ "" := h.resolve_left h1
    rw [if_neg (fun hh => h1 hh.1), if_neg h1, if_pos h2]
    rfl

/-! ### Counting the merged output -/

theorem intLE_trans (a b c : Int) :
    decide (a ≤ b) = true → decide (b ≤ c) = true → decide (a ≤ c) = true := by
  simp only [decide_eq_true_eq]
  omega

theorem intLE_total (a b : Int) : decide (a ≤ b) || decide (b ≤ a) := by
  by_cases h : a ≤ b
  · simp [h]
  · simp [decide_eq_true_eq, le_of_lt (lt_of_not_le h)]

theorem keys_toFinset (entries : List LyricEntry) :
    ((buildDict entries).map Prod.fst).toFinset =
      (entries.map (fun e => e.time)).toFinset := by
  ext t
  rw [List.mem_toFinset, List.mem_toFinset, mem_buildDict_keys, List.mem_map]

theorem mem_merge_all_times {A B : String} {t : Int} :
    t ∈ (((buildDict (parse_lrc_content A)).map Prod.fst ++
        (buildDict (parse_lrc_content B)).map Prod.fst).dedup).mergeSort
        (fun a b => decide (a ≤ b)) ↔
      ((∃ e ∈ parse_lrc_content A, e.time = t) ∨
        (∃ e ∈ parse_lrc_content B, e.time = t)) := by
  rw [List.mem_mergeSort, List.mem_dedup, List.mem_append, mem_buildDict_keys,
    mem_buildDict_keys]

theorem merge_line_isSome_of_mem {A B : String} {t : Int}
    (h : t ∈ (((buildDict (parse_lrc_content A)).map Prod.fst ++
        (buildDict (parse_lrc_content B)).map Prod.fst).dedup).mergeSort
        (fun a b => decide (a ≤ b))) :
    (mergeLine (buildDict (parse_lrc_content A)) (buildDict (parse_lrc_content B)) t).isSome := by
  rcases mem_merge_all_times.mp h with hA | hB
  · exact mergeLine_isSome (Or.inl (dictGetD_ne_empty hA))
  · exact mergeLine_isSome (Or.inr (dictGetD_ne_empty hB))

/-- The merged output has one line for each timestamp in the sorted,
deduplicated union of the two key sets, and the union list is strictly
increasing. -/
theorem merge_lyrics_spec (A B : String) :
    ∃ ts : List Int,
      (∀ t, t ∈ ts ↔ ((∃ e ∈ parse_lrc_content A, e.time = t) ∨
        (∃ e ∈ parse_lrc_content B, e.time = t))) ∧
      ts.Pairwise (fun a b => a < b) ∧
      (merge_lyrics A B).length = ts.length ∧
      (merge_lyrics A B).length =
        ((((parse_lrc_content A).map (fun e => e.time)).toFinset ∪
          ((parse_lrc_content B).map (fun e => e.time)).toFinset)).card := by
  refine ⟨(((buildDict (parse_lrc_content A)).map Prod.fst ++
    (buildDict (parse_lrc_content B)).map Prod.fst).dedup).mergeSort
    (fun a b => decide (a ≤ b)), fun t => mem_merge_all_times, ?_, ?_, ?_⟩
  · have hsorted := List.sorted_mergeSort
      intLE_trans intLE_total
      (((buildDict (parse_lrc_content A)).map Prod.fst ++
        (buildDict (parse_lrc_content B)).map Prod.fst).dedup)
    have hnodup : (((buildDict (parse_lrc_content A)).map Prod.fst ++
        (buildDict (parse_lrc_content B)).map Prod.fst).dedup).mergeSort
        (fun a b => decide (a ≤ b)) |>.Nodup :=
      ((List.mergeSort_perm _ _).nodup_iff).mpr (List.nodup_dedup _)
    exact (hsorted.and hnodup).imp
      (fun hab => lt_of_le_of_ne (by simpa using hab.1) hab.2)
  · have hlen : ∀ x ∈ (((buildDict (parse_lrc_content A)).map Prod.fst ++
        (buildDict (parse_lrc_content B)).map Prod.fst).dedup).mergeSort
        (fun a b => decide (a ≤ b)),
        (mergeLine (buildDict (parse_lrc_content A))
          (buildDict (parse_lrc_content B)) x).isSome :=
      fun x hx => merge_line_isSome_of_mem hx
    simpa only [merge_lyrics] using filterMap_length_of_isSome hlen
  · have hlen : ∀ x ∈ (((buildDict (parse_lrc_content A)).map Prod.fst ++
        (buildDict (parse_lrc_content B)).map Prod.fst).dedup).mergeSort
        (fun a b => decide (a ≤ b)),
        (mergeLine (buildDict (parse_lrc_content A))
          (buildDict (parse_lrc_content B)) x).isSome :=
      fun x hx => merge_line_isSome_of_mem hx
    have h1 : (merge_lyrics A B).length =
        (((buildDict (parse_lrc_content A)).map Prod.fst ++
          (buildDict (parse_lrc_content B)).map Prod.fst).dedup).length := by
      have := filterMap_length_of_isSome hlen
      simpa only [merge_lyrics, List.length_mergeSort] using this
    rw [h1, ← List.card_toFinset, List.toFinset_append, keys_toFinset, keys_toFinset]

/-! ### Stability of the sort -/

/-- Entries sharing one timestamp keep their encounter order through the
stable sort: filtering the sorted document at a timestamp equals
filtering the raw document. -/
theorem parse_filter_stable (text : String) (t : Int) :
    (parse_lrc_content text).filter (fun e => e.time == t) =
      (rawLyrics text).filter (fun e => e.time == t) := by
  have hall : ∀ e ∈ (rawLyrics text).filter (fun e => e.time == t), e.time = t :=
    fun e he => beq_iff_eq.mp (List.mem_filter.mp he).2
  have hpair : ((rawLyrics text).filter (fun e => e.time == t)).Pairwise
      (fun a b => entryLE a b = true) :=
    List.pairwise_of_forall_mem_list (fun a ha b hb => by
      simp [entryLE, hall a ha, hall b hb])
  have hsub : ((rawLyrics text).filter (fun e => e.time == t)).Sublist
      (parse_lrc_content text) :=
    List.sublist_mergeSort entryLE_trans entryLE_total hpair (List.filter_sublist _)
  have hsub2 : ((rawLyrics text).filter (fun e => e.time == t)).Sublist
      ((parse_lrc_content text).filter (fun e => e.time == t)) := by
    have h2 := hsub.filter (fun e => e.time == t)
    rw [List.filter_filter] at h2
    simpa only [Bool.and_self] using h2
  have hperm : ((parse_lrc_content text).filter (fun e => e.time == t)).Perm
      ((rawLyrics text).filter (fun e => e.time == t)) :=
    (List.mergeSort_perm (rawLyrics text) entryLE).filter _
  exact (hsub2.eq_of_length hperm.length_eq.symm).symm

/-! ### Error characterization of the codec -/

/-- Every failure of `parseTimeCore` carries the (bracket-stripped)
offending text. -/
theorem parseTimeCore_error_val (t : List Char) :
    ∀ e, parseTimeCore t = .error e → e = String.mk t := by
  intro e h
  unfold parseTimeCore at h
  repeat' split at h
  all_goals first
    | (cases h; rfl)
    | cases h

/-- `parseTimeCore` fails exactly when the text has no colon or one of
the component substrings fails Python integer conversion. -/
theorem parseTimeCore_error_iff (t : List Char) :
    (∃ e, parseTimeCore t = .error e) ↔
      (match splitOnce ':' t with
       | none => True
       | some (minutes, rest) =>
         pyInt minutes = none ∨
         (if '.' ∈ rest then
            match splitOnce '.' rest with
            | none => True
            | some (seconds, frac) =>
              pyInt seconds = none ∨
              (if frac.length = 2 then pyInt frac = none
               else pyInt (frac.take 3) = none)
          else pyInt rest = none)) := by
  cases h1 : splitOnce ':' t with
  | none =>
    simp only [parseTimeCore, h1]
    simp
  | some p =>
    obtain ⟨minutes, rest⟩ := p
    by_cases hdot : '.' ∈ rest
    · cases h2 : splitOnce '.' rest with
      | none =>
        simp only [parseTimeCore, h1, if_pos hdot, h2]
        simp
      | some q =>
        obtain ⟨seconds, frac⟩ := q
        by_cases hlen : frac.length = 2
        · cases hm : pyInt minutes with
          | none =>
            simp only [parseTimeCore, h1, if_pos hdot, h2, if_pos hlen, hm]
            cases pyInt seconds <;> cases pyInt frac <;> simp
          | some vm =>
            cases hs : pyInt seconds with
            | none =>
              simp only [parseTimeCore, h1, if_pos hdot, h2, if_pos hlen, hm, hs]
              cases pyInt frac <;> simp
            | some vs =>
              cases hf : pyInt frac with
              | none =>
                simp only [parseTimeCore, h1, if_pos hdot, h2, if_pos hlen, hm, hs, hf,
                  Option.map_none']
                simp
              | some vf =>
                simp only [parseTimeCore, h1, if_pos hdot, h2, if_pos hlen, hm, hs, hf,
                  Option.map_some']
                simp
        · cases hm : pyInt minutes with
          | none =>
            simp only [parseTimeCore, h1, if_pos hdot, h2, if_neg hlen, hm]
            cases pyInt seconds <;> cases pyInt (frac.take 3) <;> simp
          | some vm =>
            cases hs : pyInt seconds with
            | none =>
              simp only [parseTimeCore, h1, if_pos hdot, h2, if_neg hlen, hm, hs]
              cases pyInt (frac.take 3) <;> simp
            | some vs =>
              cases hf : pyInt (frac.take 3) with
              | none =>
                simp only [parseTimeCore, h1, if_pos hdot, h2, if_neg hlen, hm, hs, hf]
                simp
              | some vf =>
                simp only [parseTimeCore, h1, if_pos hdot, h2, if_neg hlen, hm, hs, hf]
                simp
    · cases hm : pyInt minutes with
      | none =>
        simp only [parseTimeCore, h1, if_neg hdot, hm]
        cases pyInt rest <;> simp
      | some vm =>
        cases hs : pyInt rest with
        | none =>
          simp only [parseTimeCore, h1, if_neg hdot, hm, hs]
          simp
        | some vs =>
          simp only [parseTimeCore, h1, if_neg hdot, hm, hs]
          simp

/-! ### Skipping lines without recognisable tags -/

theorem lineEntriesDiag_no_caps {line : List Char}
    (h : (scanTags (pyStrip line)).1 = []) : lineEntriesDiag line = ([], []) := by
  simp only [lineEntriesDiag]
  rw [if_pos (Or.inr (Or.inl h))]

/-- A line in which the scanner finds no tag contributes nothing to the
document: deleting it does not change the raw entry stream. -/
theorem bad_line_skipped (pre post : List (List Char)) (bad : List Char)
    (hbad : (scanTags (pyStrip bad)).1 = []) :
    ((pre ++ bad :: post).map (fun l => (lineEntriesDiag l).1)).flatten =
      ((pre ++ post).map (fun l => (lineEntriesDiag l).1)).flatten := by
  simp [List.map_append, List.flatten_append, lineEntriesDiag_no_caps hbad]


theorem tc_getLast_frac {m s f : List Char} (hfne : f ≠ []) (hfd : f.all isDigit = true) :
    ∀ c, (m ++ ':' :: (s ++ '.' :: f)).getLast? = some c → isBracket c = false := by
  intro c hc
  have hsh : m ++ ':' :: (s ++ '.' :: f) = (m ++ ':' :: s ++ ['.']) ++ f := by
    simp
  rw [hsh] at hc
  exact getLast_not_bracket hfne hfd c hc

theorem tc_getLast_nofrac {m s : List Char} (hsne : s ≠ []) (hsd : s.all isDigit = true) :
    ∀ c, (m ++ ':' :: s).getLast? = some c → isBracket c = false := by
  intro c hc
  have hsh : m ++ ':' :: s = (m ++ [':']) ++ s := by
    simp
  rw [hsh] at hc
  exact getLast_not_bracket hsne hsd c hc

/-! ### Claims -/

/-- C1: for every well-formed timecode string — optionally bracketed, of
the form MM:SS, MM:SS.ff or MM:SS.fff… over digit blocks — decode
returns minutes×60000 + seconds×1000 + milliseconds, where the
milliseconds term is 0 when no fractional part is present, the 2-digit
fraction scaled by 10 when the fraction has exactly 2 digits, and the
integer value of the first 3 fraction digits (truncated, not rounded)
otherwise; in particular decode("01:30.50") = 90500 and
decode("01:30.500") = 90500. -/
theorem claim_decode_wellformed (m s f : List Char)
    (hmne : m ≠ []) (hsne : s ≠ []) (hfne : f ≠ [])
    (hmd : m.all isDigit = true) (hsd : s.all isDigit = true)
    (hfd : f.all isDigit = true) :
    (parse_lrc_time (String.mk (m ++ ':' :: (s ++ '.' :: f))) =
      .ok ((decodeDigits m : Int) * 60000 + (decodeDigits s : Int) * 1000 +
        (if f.length = 2 then (decodeDigits f : Int) * 10
         else (decodeDigits (f.take 3) : Int)))) ∧
    (parse_lrc_time (String.mk ('[' :: ((m ++ ':' :: (s ++ '.' :: f)) ++ [']']))) =
      .ok ((decodeDigits m : Int) * 60000 + (decodeDigits s : Int) * 1000 +
        (if f.length = 2 then (decodeDigits f : Int) * 10
         else (decodeDigits (f.take 3) : Int)))) ∧
    (parse_lrc_time (String.mk (m ++ ':' :: s)) =
      .ok ((decodeDigits m : Int) * 60000 + (decodeDigits s : Int) * 1000 + 0)) ∧
    (parse_lrc_time (String.mk ('[' :: ((m ++ ':' :: s) ++ [']']))) =
      .ok ((decodeDigits m : Int) * 60000 + (decodeDigits s : Int) * 1000 + 0)) ∧
    parse_lrc_time "01:30.50" = .ok 90500 ∧
    parse_lrc_time "01:30.500" = .ok 90500 := by
  refine ⟨?_, ?_, ?_, ?_, by decide, by decide⟩
  · rw [parse_lrc_time_mk (head_not_bracket hmne hmd) (tc_getLast_frac hfne hfd)]
    exact parseTimeCore_frac hmne hsne hfne hmd hsd hfd
  · rw [parse_lrc_time_mk_bracketed (head_not_bracket hmne hmd) (tc_getLast_frac hfne hfd)]
    exact parseTimeCore_frac hmne hsne hfne hmd hsd hfd
  · rw [parse_lrc_time_mk (head_not_bracket hmne hmd) (tc_getLast_nofrac hsne hsd),
      parseTimeCore_nofrac hmne hsne hmd hsd]
    norm_num
  · rw [parse_lrc_time_mk_bracketed (head_not_bracket hmne hmd) (tc_getLast_nofrac hsne hsd),
      parseTimeCore_nofrac hmne hsne hmd hsd]
    norm_num

theorem claim_decode_wellformed_witness :
    parse_lrc_time "01:30.500" = .ok 90500 :=
  (claim_decode_wellformed ['0', '1'] ['3', '0'] ['5', '0', '0'] (by decide) (by decide)
    (by decide) (by decide) (by decide) (by decide)).2.2.2.2.2

/-- C2: for every non-negative ms below 6000000000,
decode(encode(ms)) = ms, and encode produces the zero-padded
"[MM:SS.mmm]" with unbounded minutes, 2-digit seconds and 3-digit
milliseconds. -/
theorem claim_decode_encode_roundtrip (ms : Nat) (_h : ms < 6000000000) :
    parse_lrc_time (format_lrc_time (ms : Int)) = .ok (ms : Int) ∧
    format_lrc_time (ms : Int) =
      String.mk ('[' :: (zfill 2 (natToDigits (ms / 60000)) ++
        ':' :: zfill 2 (natToDigits (ms % 60000 / 1000)) ++
        '.' :: zfill 3 (natToDigits (ms % 1000)) ++ [']'])) :=
  ⟨parse_format_roundtrip ms, format_lrc_time_ofNat ms⟩

theorem claim_decode_encode_roundtrip_witness :
    parse_lrc_time (format_lrc_time ((90500 : Nat) : Int)) = .ok ((90500 : Nat) : Int) :=
  (claim_decode_encode_roundtrip 90500 (by decide)).1

/-- C3: the merge output has exactly one formatted line per timestamp of
the sorted ascending duplicate-free union of the two sides, never one
for a timestamp on neither side; hence its length is at most the sum of
the distinct-timestamp counts, with equality exactly when the sides
share no timestamp. -/
theorem claim_merge_union_counting (A B : String) :
    (∃ ts : List Int,
      (∀ t, t ∈ ts ↔ ((∃ e ∈ parse_lrc_content A, e.time = t) ∨
        (∃ e ∈ parse_lrc_content B, e.time = t))) ∧
      ts.Pairwise (fun a b => a < b) ∧
      (merge_lyrics A B).length = ts.length) ∧
    (merge_lyrics A B).length ≤
      (((parse_lrc_content A).map (fun e => e.time)).toFinset).card +
        (((parse_lrc_content B).map (fun e => e.time)).toFinset).card ∧
    ((merge_lyrics A B).length =
        (((parse_lrc_content A).map (fun e => e.time)).toFinset).card +
          (((parse_lrc_content B).map (fun e => e.time)).toFinset).card ↔
      ((parse_lrc_content A).map (fun e => e.time)).toFinset ∩
        ((parse_lrc_content B).map (fun e => e.time)).toFinset = ∅) := by
  obtain ⟨ts, hmem, hsort, hlen, hcard⟩ := merge_lyrics_spec A B
  refine ⟨⟨ts, hmem, hsort, hlen⟩, ?_, ?_⟩
  · rw [hcard]
    exact Finset.card_union_le _ _
  · rw [hcard, Finset.card_union_eq_card_add_card]
    exact Finset.disjoint_iff_inter_eq_empty

/-- C4: merging the two-line English document with the two-line Chinese
document yields exactly the two combined lines, each formatted as
"<encoded-time> <primary> / <secondary>". -/
theorem claim_merge_end_to_end :
    merge_lyrics "[00:01.00]Hello world\n[00:05.00]This is a test"
        "[00:01.00]你好世界\n[00:05.00]这是一个测试" =
      ["[00:01.000] Hello world / 你好世界", "[00:05.000] This is a test / 这是一个测试"] := by
  rw [@merge_lyrics_eq_of _ _
    [⟨1000, "Hello world"⟩, ⟨5000, "This is a test"⟩]
    [⟨1000, "你好世界"⟩, ⟨5000, "这是一个测试"⟩]
    (parse_lrc_content_eq_of (by decide) (by decide))
    (parse_lrc_content_eq_of (by decide) (by decide)) (by decide)]
  decide

/-- C5: within one side, the last occurrence (in parse order) of a
duplicated timestamp wins when the document is collapsed into the
timestamp-to-text association, and the stable ascending sort preserves
encounter order among entries with equal timestamps. -/
theorem claim_last_occurrence_wins (text : String) (t : Int) :
    (dictGetD (buildDict (parse_lrc_content text)) t "" =
      match ((parse_lrc_content text).filter (fun e => e.time == t)).getLast? with
      | some e => e.content
      | none => "") ∧
    (parse_lrc_content text).filter (fun e => e.time == t) =
      (rawLyrics text).filter (fun e => e.time == t) :=
  ⟨dictGetD_buildDict _ t, parse_filter_stable text t⟩

/-- C6 counterexample: on a document with one malformed tag among valid
tags, parsing keeps exactly the valid entries, but NO diagnostic is
emitted — the malformed tag never matches the tag pattern, so the
claimed skip-with-diagnostic does not happen. -/
theorem claim_bad_tag_counterexample :
    ¬ (parse_lrc_content "[00:01.00]First\n[bad]Broken\n[00:05.00]Second" =
        [⟨1000, "First"⟩, ⟨5000, "Second"⟩] →
      parseDiagnostics "[00:01.00]First\n[bad]Broken\n[00:05.00]Second" ≠ []) := by
  intro hclaim
  exact hclaim (parse_lrc_content_eq_of (by decide) (by decide)) (by decide)

/-- C6 amended: a malformed timecode tag never matches the tag pattern,
so parsing does not abort and is unchanged by deleting a line carrying
no recognisable tag; the document contains exactly the valid entries in
sorted ascending order, and the malformed tag is skipped silently — no
diagnostic is ever emitted (the decode-failure branch is unreachable). -/
theorem claim_bad_tag_resilience (pre post : List (List Char)) (bad : List Char)
    (hbad : (scanTags (pyStrip bad)).1 = []) :
    ((pre ++ bad :: post).map (fun l => (lineEntriesDiag l).1)).flatten =
      ((pre ++ post).map (fun l => (lineEntriesDiag l).1)).flatten ∧
    (∀ text, (parse_lrc_content text).Pairwise (fun a b => a.time ≤ b.time)) ∧
    (∀ text, parseDiagnostics text = []) ∧
    parse_lrc_content "[00:01.00]First\n[bad]Broken\n[00:05.00]Second" =
      [⟨1000, "First"⟩, ⟨5000, "Second"⟩] ∧
    (∃ e, parse_lrc_time "bad" = .error e) :=
  ⟨bad_line_skipped pre post bad hbad, parse_content_sorted, parseDiagnostics_empty,
    parse_lrc_content_eq_of (by decide) (by decide), ⟨"bad", by decide⟩⟩

theorem claim_bad_tag_resilience_witness :
    (([] ++ ("[bad]Broken" : String).data :: []).map
        (fun l => (lineEntriesDiag l).1)).flatten =
      (([] ++ []).map (fun l => (lineEntriesDiag l).1)).flatten :=
  (claim_bad_tag_resilience [] [] ("[bad]Broken" : String).data (by decide)).1

/-- C7 counterexample: the minutes component of "-1:05.000" is not
parseable as a non-negative integer — Python int reads it as -1 — yet
decode succeeds with -55000 instead of failing as the claim requires. -/
theorem claim_decode_error_counterexample :
    ¬ ((¬ ∃ n : Nat, pyInt ("-1" : String).data = some (n : Int)) →
        ∃ e, parse_lrc_time "-1:05.000" = .error e) := by
  intro hclaim
  have hneg : ¬ ∃ n : Nat, pyInt ("-1" : String).data = some (n : Int) := by
    rintro ⟨n, hn⟩
    rw [show pyInt ("-1" : String).data = some (-1) from by decide] at hn
    injection hn with hn2
    omega
  obtain ⟨e, he⟩ := hclaim hneg
  rw [show parse_lrc_time "-1:05.000" = .ok (-55000) from by decide] at he
  cases he

/-- C7 amended: decode fails with a format error, and for no other
reason, exactly when the bracket-stripped text lacks the required colon
separator or a minutes/seconds/fraction component fails Python integer
conversion (which accepts signed values, so negative components are
accepted rather than rejected); the raised error carries the
bracket-stripped offending text. -/
theorem claim_decode_error_conditions (s : String) :
    ((∃ e, parse_lrc_time s = .error e) ↔
      (match splitOnce ':' (stripBoth isBracket s.data) with
       | none => True
       | some (minutes, rest) =>
         pyInt minutes = none ∨
         (if '.' ∈ rest then
            match splitOnce '.' rest with
            | none => True
            | some (seconds, frac) =>
              pyInt seconds = none ∨
              (if frac.length = 2 then pyInt frac = none
               else pyInt (frac.take 3) = none)
          else pyInt rest = none))) ∧
    ∀ e, parse_lrc_time s = .error e → e = String.mk (stripBoth isBracket s.data) :=
  ⟨parseTimeCore_error_iff _, parseTimeCore_error_val _⟩

theorem claim_decode_error_conditions_witness :
    ("bad" : String) = String.mk (stripBoth isBracket ("bad" : String).data) :=
  (claim_decode_error_conditions "bad").2 "bad" (by decide)

/-- C8: a line carrying several timecode tags emits one entry per tag,
all sharing the same tag-stripped, whitespace-trimmed text; in
particular "[00:01.00][00:10.00]Repeated line" yields entries at 1000ms
and 10000ms, both with text "Repeated line". -/
theorem claim_multi_timecode (line : List Char)
    (hcaps : (scanTags (pyStrip line)).1 ≠ [])
    (hcontent : pyStrip (scanTags (pyStrip line)).2 ≠ []) :
    (lineEntriesDiag line).1.length = (scanTags (pyStrip line)).1.length ∧
    (∀ e ∈ (lineEntriesDiag line).1,
      e.content = String.mk (pyStrip (scanTags (pyStrip line)).2)) ∧
    parse_lrc_content "[00:01.00][00:10.00]Repeated line" =
      [⟨1000, "Repeated line"⟩, ⟨10000, "Repeated line"⟩] := by
  refine ⟨?_, fun e he => (lineEntriesDiag_content he).1,
    parse_lrc_content_eq_of (by decide) (by decide)⟩
  apply lineEntriesDiag_fst_length line ?_ hcaps hcontent
  intro hnil
  rw [hnil] at hcaps
  exact hcaps rfl

theorem claim_multi_timecode_witness :
    (lineEntriesDiag ("[00:01.00][00:10.00]Repeated line" : String).data).1.length =
      (scanTags (pyStrip ("[00:01.00][00:10.00]Repeated line" : String).data)).1.length :=
  (claim_multi_timecode ("[00:01.00][00:10.00]Repeated line" : String).data
    (by decide) (by decide)).1

/-- C9: merge never fails: whitespace-only or empty inputs parse to the
empty document and merge to the empty sequence, and a timestamp present
on only one side is a valid state producing a single-text line. -/
theorem claim_merge_total (s A B : String)
    (hs : ∀ c ∈ s.data, isPySpace c = true)
    (hA : ∀ c ∈ A.data, isPySpace c = true)
    (hB : ∀ c ∈ B.data, isPySpace c = true) :
    parse_lrc_content s = [] ∧
    merge_lyrics A B = [] ∧
    merge_lyrics "[00:02.00]Only original" "" = ["[00:02.000] Only original"] := by
  refine ⟨parse_content_space hs, ?_, ?_⟩
  · rw [merge_lyrics_eq_of (parse_content_space hA) (parse_content_space hB) (by decide)]
    decide
  · rw [@merge_lyrics_eq_of _ _ [⟨2000, "Only original"⟩] []
      (parse_lrc_content_eq_of (by decide) (by decide))
      (parse_lrc_content_eq_of (by decide) (by decide)) (by decide)]
    decide

theorem claim_merge_total_witness :
    parse_lrc_content ("   \n  " : String) = [] :=
  (claim_merge_total "   \n  " "" " " (by decide) (by decide) (by decide)).1

/-- C10: the tag pattern requires digits on both sides of the dot, so a
bracketed fraction-less timecode such as "[01:30]" is never recognised
as a tag — every capture contains a dot, the line "[01:30]Hello"
contributes no entries, and the token stays in the display text of a
line that also carries a valid tag — although decode itself accepts the
fraction-less timecode as 90000 ms. -/
theorem claim_fractionless_tag :
    (∀ (cs cap : List Char), cap ∈ (scanTags cs).1 → '.' ∈ cap) ∧
    parse_lrc_content "[01:30]Hello" = [] ∧
    parse_lrc_content "[01:30][00:02.00]Hi" = [⟨2000, "[01:30]Hi"⟩] ∧
    parse_lrc_time "[01:30]" = .ok 90000 :=
  ⟨fun _ _ h => capture_has_dot h,
    parse_lrc_content_eq_of (by decide) (by decide),
    parse_lrc_content_eq_of (by decide) (by decide), by decide⟩

theorem claim_fractionless_tag_witness :
    '.' ∈ ("00:02.00" : String).data :=
  claim_fractionless_tag.1 ("[00:02.00]Hi" : String).data ("00:02.00" : String).data
    (by decide)
